import Mathlib

/-!
Verification of the gather-context tool (src/main.rs): a shallow embedding of
its string scanning, symbol indexing, call-graph resolution and breadth-first
context assembly, together with theorems settling the specification claims.

Strings are modelled as `List Char` (the tool only manipulates byte/char
sequences).  Rust `HashMap`s are modelled as association lists with
insert-overwrite semantics; `HashSet`s as duplicate-free lists.  Loops that
advance by a computed amount are written with an explicit fuel argument
(always called with fuel larger than the input length, so the fuel never
runs out on the real inputs) to keep every definition structurally
recursive and kernel-evaluable.
-/

namespace GatherContext

abbrev Str := List Char

def strL (s : String) : Str := s.toList

/-- Character class `[a-zA-Z0-9_]` used by every identifier regex in main.rs. -/
def isIdentChar (c : Char) : Bool := c.isAlphanum || c = '_'

/-- Character class `\s` of the regexes (ASCII whitespace). -/
def isWsChar (c : Char) : Bool :=
  c = ' ' || c = '\t' || c = '\n' || c = '\r' || c = '\x0b' || c = '\x0c'

/-- Length of the maximal whitespace run at the front of `s` (a `\s*` step). -/
def countWs (s : Str) : Nat := (s.takeWhile isWsChar).length

/-- Fuel-driven body of `replaceAll`; replaces non-overlapping occurrences of
`pat` left to right, exactly as Rust's `str::replace`. -/
def replaceAllGo (pat rep : Str) : Nat → Str → Str
  | 0, s => s
  | _ + 1, [] => []
  | fuel + 1, c :: rest =>
    if pat ≠ [] ∧ pat.isPrefixOf (c :: rest) then
      rep ++ replaceAllGo pat rep fuel ((c :: rest).drop pat.length)
    else
      c :: replaceAllGo pat rep fuel rest

/-- Rust `str::replace pat -> rep` (all non-overlapping occurrences, left to
right, no rescanning of the replacement text). -/
def replaceAll (pat rep s : Str) : Str := replaceAllGo pat rep (s.length + 1) s

/-- The `lib.rs` / `mod.rs` special case of `extract_module_path`
(main.rs lines 259-264): a trailing `::lib` or `::mod` is cut off. -/
def collapseLibMod (m : Str) : Str :=
  if (strL "::lib").isSuffixOf m then m.take (m.length - 5)
  else if (strL "::mod").isSuffixOf m then m.take (m.length - 5)
  else m

/-- The separator-replacement steps of `extract_module_path` (main.rs lines
254-256): `'/'` and `'\'` both become `::`. -/
def sepReplaced (relPath : Str) : Str :=
  replaceAll (strL "\\") (strL "::") (replaceAll (strL "/") (strL "::") relPath)

/-- `extract_module_path` (main.rs lines 249-267) applied to the path of the
file relative to the project root: both separators are replaced by `::`,
then every occurrence of `.rs` is removed by `str::replace`, then a trailing
`::lib`/`::mod` is collapsed. -/
def extractModulePath (relPath : Str) : Str :=
  collapseLibMod (replaceAll (strL ".rs") [] (sepReplaced relPath))

/-- The module path the specification describes: as `extractModulePath` but
with ONLY a final `.rs` extension stripped (not every occurrence of `.rs`).
This follows the spec's words and is compared against the source-derived
`extractModulePath`. -/
def stripRsExtension (m : Str) : Str :=
  if (strL ".rs").isSuffixOf m then m.take (m.length - 3) else m

/-- Modelled from the spec: `module_path` with directory separators replaced
by `::`, only the `.rs` file extension stripped, and a trailing `lib`/`mod`
component collapsed. -/
def claimModulePath (relPath : Str) : Str :=
  collapseLibMod (stripRsExtension (sepReplaced relPath))

/-- Rust `str::contains` for a literal pattern. -/
def containsStr (hay pat : Str) : Bool :=
  if pat.isPrefixOf hay then true
  else
    match hay with
    | [] => false
    | _ :: t => containsStr t pat

/-- Index of the last occurrence of `pat` in `s`, if any. -/
def lastIndexOf (pat s : Str) : Option Nat :=
  (((List.range (s.length + 1)).filter (fun i => pat.isPrefixOf (s.drop i)))).getLast?

/-- Rust `str::rsplit_once("::")` restricted to the first component followed by
`.map(|(m, _)| m)` as used at main.rs line 85: the caller's module path. -/
def callerModuleOf (q : Str) : Option Str :=
  (lastIndexOf (strL "::") q).map (fun i => q.take i)

/-- Association-list lookup, modelling `HashMap::get`. -/
def lookupA {α : Type} (k : Str) : List (Str × α) → Option α
  | [] => none
  | (k', v) :: rest => if k = k' then some v else lookupA k rest

/-- Association-list insert with overwrite, modelling `HashMap::insert`. -/
def insertA {α : Type} (k : Str) (v : α) : List (Str × α) → List (Str × α)
  | [] => [(k, v)]
  | (k', v') :: rest => if k = k' then (k, v) :: rest else (k', v') :: insertA k v rest

/-- `HashSet::insert` on a duplicate-free list. -/
def insertCall (s : Str) (l : List Str) : List Str := if s ∈ l then l else l ++ [s]

/-- Disambiguation step of the call-graph resolver (main.rs lines 79-95):
a single variant is taken unconditionally; with several variants the first
one whose module path equals the caller's module is preferred, else the
first variant.  `by_name` values are always nonempty in the program, so the
`[]` case (where the Rust code would index out of bounds) is unreachable. -/
def resolveOne (callerModule : Option Str) (options : List (Str × Str)) : Option Str :=
  match options with
  | [] => none
  | o :: rest =>
    if rest = [] then some o.1
    else
      match (o :: rest).find? (fun v => callerModule = some v.2) with
      | some v => some v.1
      | none => some o.1

/-- Resolution of one function's raw call set into qualified edges
(main.rs lines 75-96): names absent from `by_name` are dropped silently. -/
def resolveCalls (byName : List (Str × List (Str × Str))) (callerQ : Str)
    (rawCalls : List Str) : List Str :=
  rawCalls.foldl (fun acc calledFn =>
    match lookupA calledFn byName with
    | some options =>
      match resolveOne (callerModuleOf callerQ) options with
      | some q => insertCall q acc
      | none => acc
    | none => acc) []

/-- Result of the brace-matching loop of `process_file`
(main.rs lines 298-313): `stopped n` when the loop breaks at the first
closing brace that returns the counter to zero after an opening brace has
been seen (`n` characters consumed, inclusive); `ended count found` with the
final loop state when the scan reaches the end of the content. -/
inductive ScanOut : Type
  | stopped (consumed : Nat)
  | ended (count : Int) (found : Bool)
deriving DecidableEq

/-- Adds one consumed character to a `stopped` result. -/
def ScanOut.bump : ScanOut → ScanOut
  | .stopped n => .stopped (n + 1)
  | e => e

/-- The brace-matching character loop (main.rs lines 302-313). -/
def braceScan (count : Int) (found : Bool) : Str → ScanOut
  | [] => .ended count found
  | c :: rest =>
    if c = '\x7b' then (braceScan (count + 1) true rest).bump
    else if c = '\x7d' then
      if count - 1 = 0 ∧ found then .stopped 1
      else (braceScan (count - 1) found rest).bump
    else (braceScan count found rest).bump

/-- `def_end` (main.rs lines 300-318): where the brace scan stops, or on
failure (`!found_opening_brace || brace_count != 0`) a 5000-character window
clamped to the end of the content. -/
def defEndOf (content : Str) (matchEnd : Nat) : Nat :=
  match braceScan 0 false (content.drop matchEnd) with
  | .stopped n => matchEnd + n
  | .ended count found =>
    if found = false ∨ count ≠ 0 then min (matchEnd + 5000) content.length
    else matchEnd

/-- Backward extension of `def_start` to the beginning of its line
(main.rs lines 292-295). -/
def backToLineStart (content : Str) : Nat → Nat
  | 0 => 0
  | p + 1 => if content[p]? = some '\n' then p + 1 else backToLineStart content p

/-- Rust `str::trim` on the extracted slice (main.rs line 320). -/
def trimWs (s : Str) : Str := ((s.dropWhile isWsChar).reverse.dropWhile isWsChar).reverse

/-- The stored `definition` text: `content[def_start..def_end].trim()`
(main.rs line 320). -/
def defTextOf (content : Str) (defStart defEnd : Nat) : Str :=
  trimWs ((content.take defEnd).drop defStart)

/-- The `\s*\(` tail of the signature regex: returns characters consumed. -/
def matchWsParen (s : Str) : Option Nat :=
  match s.drop (countWs s) with
  | '(' :: _ => some (countWs s + 1)
  | _ => none

/-- The lazy `<.*?>` clause followed by `\s*\(`, entered just after a `<`:
tries each candidate `>` left to right (`.` does not match a newline) and
extends past it when the tail fails; returns characters consumed from after
the `<` through the `(`. -/
def matchGenericTail : Str → Option Nat
  | [] => none
  | c :: rest =>
    if c = '\n' then none
    else if c = '>' then
      match matchWsParen rest with
      | some t => some (1 + t)
      | none =>
        match matchGenericTail rest with
        | some k => some (1 + k)
        | none => none
    else
      match matchGenericTail rest with
      | some k => some (1 + k)
      | none => none

/-- An optional keyword group `(pub\s+)?` / `(async\s+)?`: consumed only when
the keyword is literally present and followed by at least one whitespace
character (the greedy `\s+` then takes the whole run); otherwise skipped. -/
def matchKwWs (kw : Str) (s : Str) : Nat :=
  if kw.isPrefixOf s ∧ isWsChar ((s.drop kw.length).headD 'x') then
    kw.length + countWs (s.drop kw.length)
  else 0

/-- The function-definition regex
`(?m)^\s*(pub\s+)?(async\s+)?fn\s+([a-zA-Z0-9_]+)\s*(<.*?>)?\s*\(`
(main.rs lines 285-286) attempted at one line-start position: on success,
`(match length, captured name)`. -/
def matchFnSig (s : Str) : Option (Nat × Str) :=
  let w0 := countWs s
  let s1 := s.drop w0
  let p := matchKwWs (strL "pub") s1
  let s2 := s1.drop p
  let a := matchKwWs (strL "async") s2
  let s3 := s2.drop a
  if (strL "fn").isPrefixOf s3 then
    let s4 := s3.drop 2
    let w1 := countWs s4
    if w1 = 0 then none
    else
      let s5 := s4.drop w1
      let name := s5.takeWhile isIdentChar
      if name = [] then none
      else
        let s6 := s5.drop name.length
        let w2 := countWs s6
        match s6.drop w2 with
        | '<' :: rest =>
          match matchGenericTail rest with
          | some k => some (w0 + p + a + 2 + w1 + name.length + w2 + 1 + k, name)
          | none => none
        | _ =>
          match matchWsParen s6 with
          | some t => some (w0 + p + a + 2 + w1 + name.length + t, name)
          | none => none
  else none

/-- One pass of `fn_regex.captures_iter` (main.rs line 288): successive
leftmost matches, each starting at a line-start position (the `(?m)^`
anchor), resuming after the previous match's end.  Entries are
`(match start, match end, captured name)`.  The regex cannot match the empty
string; following the regex engine, an empty match would still advance the
scan by one character. -/
def findMatchesAux : Nat → Str → Nat → Bool → List (Nat × Nat × Str)
  | 0, _, _, _ => []
  | _ + 1, [], _, _ => []
  | fuel + 1, c :: rest, base, lineStart =>
    if lineStart then
      match matchFnSig (c :: rest) with
      | some (len, name) =>
        if len = 0 then
          (base, base, name) :: findMatchesAux fuel rest (base + 1) (decide (c = '\n'))
        else
          (base, base + len, name) ::
            findMatchesAux fuel ((c :: rest).drop len) (base + len)
              (decide ((c :: rest)[len - 1]? = some '\n'))
      | none => findMatchesAux fuel rest (base + 1) (decide (c = '\n'))
    else findMatchesAux fuel rest (base + 1) (decide (c = '\n'))

def findMatches (content : Str) : List (Nat × Nat × Str) :=
  findMatchesAux (content.length + 1) content 0 true

/-- `str::lines().count()`: one line per `\n`, plus one for a nonempty
unterminated tail (the flag records whether characters were seen since the
last newline). -/
def rlcAux : Str → Bool → Nat
  | [], inLine => if inLine then 1 else 0
  | c :: rest, _ => if c = '\n' then 1 + rlcAux rest false else rlcAux rest true

def rustLinesCount (s : Str) : Nat := rlcAux s false

/-- The recorded `line_number`:
`content[..match_start].lines().count() + 1` (main.rs line 290). -/
def recordedLineNumber (content : Str) (p : Nat) : Nat :=
  rustLinesCount (content.take p) + 1

def countNl (s : Str) : Nat := s.count '\n'

/-- 1-based line index of position `p`, counted over `content` split on
newlines. -/
def lineOfPos (content : Str) (p : Nat) : Nat := countNl (content.take p) + 1

/-- Position where the signature text proper begins inside a match starting
at `s`: the first character after the pattern's leading `\s*`. -/
def sigTokenPos (content : Str) (s : Nat) : Nat := s + countWs (content.drop s)

/-- Exclusion list for method-style calls (main.rs lines 330-360). -/
def methodBuiltins : List Str :=
  [strL "is_empty", strL "len", strL "clone", strL "unwrap", strL "unwrap_or",
   strL "unwrap_or_else", strL "expect", strL "map", strL "map_err", strL "and_then",
   strL "or_else", strL "filter", strL "collect", strL "to_string", strL "to_str",
   strL "parse", strL "as_str", strL "as_ref", strL "display", strL "send",
   strL "await", strL "lock", strL "get", strL "push", strL "pop", strL "clear",
   strL "insert", strL "contains_key"]

/-- Keyword/macro/builtin exclusion list for free-function-style calls
(main.rs lines 372-378). -/
def callKeywords : List Str :=
  [strL "if", strL "for", strL "while", strL "match", strL "return", strL "assert",
   strL "println", strL "panic", strL "format", strL "print", strL "info",
   strL "error", strL "warn", strL "debug", strL "trace", strL "let", strL "break",
   strL "continue", strL "loop", strL "async", strL "await", strL "move",
   strL "static", strL "const", strL "struct", strL "enum", strL "trait",
   strL "impl", strL "type", strL "pub", strL "self", strL "map", strL "filter",
   strL "as", strL "is", strL "mut", strL "ref", strL "vec", strL "super",
   strL "use", strL "extern", strL "spawn", strL "process", strL "eprintln",
   strL "unwrap"]

/-- Builder-call exclusion list (main.rs lines 391-394). -/
def builderExclusions : List Str :=
  [strL "Ok", strL "Err", strL "Some", strL "None", strL "Arc", strL "Vec",
   strL "HashMap", strL "HashSet", strL "String"]

/-- `\.([a-zA-Z0-9_]+)\s*\(` captures over the body, leftmost and
non-overlapping (main.rs lines 326-328). -/
def findMethodCallsGo : Nat → Str → List Str
  | 0, _ => []
  | _ + 1, [] => []
  | fuel + 1, c :: rest =>
    if c = '.' then
      let name := rest.takeWhile isIdentChar
      if name ≠ [] then
        match (rest.drop name.length).drop (countWs (rest.drop name.length)) with
        | '(' :: tail => name :: findMethodCallsGo fuel tail
        | _ => findMethodCallsGo fuel rest
      else findMethodCallsGo fuel rest
    else findMethodCallsGo fuel rest

def findMethodCalls (body : Str) : List Str := findMethodCallsGo (body.length + 1) body

/-- `[^a-zA-Z0-9_\.]([a-zA-Z0-9_]+)\s*\(` captures (main.rs lines 367-369):
each match includes one preceding non-identifier, non-dot character, so no
match starts at the very beginning of the body. -/
def findFreeCallsGo : Nat → Str → List Str
  | 0, _ => []
  | _ + 1, [] => []
  | fuel + 1, c :: rest =>
    if isIdentChar c = false ∧ c ≠ '.' then
      let name := rest.takeWhile isIdentChar
      if name ≠ [] then
        match (rest.drop name.length).drop (countWs (rest.drop name.length)) with
        | '(' :: tail => name :: findFreeCallsGo fuel tail
        | _ => findFreeCallsGo fuel rest
      else findFreeCallsGo fuel rest
    else findFreeCallsGo fuel rest

def findFreeCalls (body : Str) : List Str := findFreeCallsGo (body.length + 1) body

/-- `([a-zA-Z0-9_]+)\s*\(\s*\)` captures (main.rs lines 388-390). -/
def findBuilderCallsGo : Nat → Str → List Str
  | 0, _ => []
  | _ + 1, [] => []
  | fuel + 1, c :: rest =>
    let name := (c :: rest).takeWhile isIdentChar
    if name ≠ [] then
      let s1 := (c :: rest).drop name.length
      match s1.drop (countWs s1) with
      | '(' :: t1 =>
        match t1.drop (countWs t1) with
        | ')' :: tail => name :: findBuilderCallsGo fuel tail
        | _ => findBuilderCallsGo fuel rest
      | _ => findBuilderCallsGo fuel rest
    else findBuilderCallsGo fuel rest

def findBuilderCalls (body : Str) : List Str := findBuilderCallsGo (body.length + 1) body

/-- `calls` extraction over a function body (main.rs lines 322-398): the
three regex passes, each filtered against its own exclusion list, all
inserted into one set. -/
def extractCalls (body : Str) : List Str :=
  (((findMethodCalls body).filter (fun n => decide (n ∉ methodBuiltins))) ++
   ((findFreeCalls body).filter (fun n => decide (n ∉ callKeywords))) ++
   ((findBuilderCalls body).filter (fun n => decide (n ∉ builderExclusions)))).foldl
    (fun acc n => insertCall n acc) []

/-- The per-function record (main.rs lines 10-18). -/
structure FunctionInfo where
  path : Str
  module_path : Str
  definition : Str
  line_number : Nat
  calls : List Str
deriving DecidableEq

/-- The record built for one regex match (main.rs lines 288-409). -/
def mkRecord (path modulePath content : Str) (m : Nat × Nat × Str) : Str × FunctionInfo :=
  let ds := backToLineStart content m.1
  let de := defEndOf content m.2.1
  let body := defTextOf content ds de
  (m.2.2, ⟨path, modulePath, body, recordedLineNumber content m.1, extractCalls body⟩)

def mkRecords (path modulePath content : Str) : List (Str × FunctionInfo) :=
  (findMatches content).map (mkRecord path modulePath content)

/-- `process_file`'s function map (main.rs lines 281-410): records inserted
into a map keyed by the bare function name (`HashMap::insert`: a later match
with the same name overwrites the earlier record).  The type/trait pass of
`process_file` is not modelled: its output is consumed by no component. -/
def processFile (path modulePath content : Str) : List (Str × FunctionInfo) :=
  (mkRecords path modulePath content).foldl (fun m r => insertA r.1 r.2 m) []

/-- Push of `(qualified_name, module_path)` onto the `by_name` entry for a
bare name (main.rs lines 64-68). -/
def pushVariant (name : Str) (v : Str × Str)
    (byName : List (Str × List (Str × Str))) : List (Str × List (Str × Str)) :=
  insertA name (((lookupA name byName).getD []) ++ [v]) byName

/-- Symbol-index construction (main.rs lines 52-70), over files given as
(path relative to the project root, file text): returns
`(function_definitions, module_functions)`. -/
def buildIndex (files : List (Str × Str)) :
    List (Str × FunctionInfo) × List (Str × List (Str × Str)) :=
  files.foldl (fun acc file =>
    let modulePath := extractModulePath file.1
    (processFile file.1 modulePath file.2).foldl (fun acc2 r =>
      let q := modulePath ++ strL "::" ++ r.1
      (insertA q r.2 acc2.1, pushVariant r.1 (q, modulePath) acc2.2)) acc)
    ([], [])

/-- Call-graph construction (main.rs lines 73-99): one resolved edge set per
defined function. -/
def buildCallGraph (defs : List (Str × FunctionInfo))
    (byName : List (Str × List (Str × Str))) : List (Str × List Str) :=
  defs.foldl (fun cg e => insertA e.1 (resolveCalls byName e.1 e.2.calls) cg) []

/-- `find_function` (main.rs lines 183-228): `none` exactly when the target
has no `by_name` entry; with one variant it is taken unconditionally; with
several, the first variant whose module path contains the preferred-module
hint, defaulting to the first variant.  `by_name` values are nonempty in the
program, so the `[]` case (a Rust index panic) is unreachable. -/
def find_function (target : Str) (preferredModule : Option Str)
    (byName : List (Str × List (Str × Str))) : Option Str :=
  match lookupA target byName with
  | none => none
  | some variants =>
    match variants with
    | [] => none
    | v :: rest =>
      if rest = [] then some v.1
      else
        match preferredModule with
        | some m =>
          match (v :: rest).find? (fun p => containsStr p.2 m) with
          | some p => some p.1
          | none => some v.1
        | none => some v.1

/-- The partial-match collection pass (main.rs lines 107-114): all variants
of every bare name containing the target as a substring. -/
def partialMatches (target : Str)
    (byName : List (Str × List (Str × Str))) : List (Str × Str) :=
  byName.foldl (fun acc e => if containsStr e.1 target then acc ++ e.2 else acc) []

/-- The suggestion-reporting loop (main.rs lines 121-126): entry `i` of the
match list is reported when `i < 10` and its qualified name has not been
reported before. -/
def suggGo : List (Str × Str) → Nat → List Str → List Str
  | [], _, _ => []
  | m :: rest, i, seen =>
    if i < 10 then
      if m.1 ∈ seen then suggGo rest (i + 1) seen
      else m.1 :: suggGo rest (i + 1) (m.1 :: seen)
    else suggGo rest (i + 1) seen

def suggestionsFor (target : Str)
    (byName : List (Str × List (Str × Str))) : List Str :=
  suggGo (partialMatches target byName) 0 []

/-- All edge targets appearing in the call graph. -/
def allTargets (cg : List (Str × List Str)) : Finset Str :=
  cg.foldr (fun e acc => e.2.toFinset ∪ acc) ∅

/-- One resolved call edge of the call graph. -/
def edgeStep (cg : List (Str × List Str)) (a b : Str) : Prop :=
  b ∈ (lookupA a cg).getD []

/-- Reachability along resolved call edges. -/
def Reaches (cg : List (Str × List Str)) (a b : Str) : Prop :=
  Relation.ReflTransGen (edgeStep cg) a b

/-- The context-assembly traversal (main.rs lines 141-169): FIFO queue seeded
with the selected function; a dequeued node already visited is skipped,
otherwise it is marked visited, its record (when defined) is appended to the
output document and its resolved edges are enqueued.  A section is the
triple `(node, path, definition)`: the node component records which
qualified function the section was emitted for (the Rust code emits the
`=== path ===` marker and the definition text). -/
def bfsLoop (defs : List (Str × FunctionInfo)) (cg : List (Str × List Str)) :
    List Str → List Str → List (Str × Str × Str) → List Str × List (Str × Str × Str)
  | [], visited, output => (visited, output)
  | current :: queue, visited, output =>
    if hv : current ∈ visited then bfsLoop defs cg queue visited output
    else
      match lookupA current defs with
      | some info =>
        bfsLoop defs cg (queue ++ (lookupA current cg).getD [])
          (current :: visited) (output ++ [(current, info.path, info.definition)])
      | none => bfsLoop defs cg queue (current :: visited) output
  termination_by queue visited _ =>
    (((queue.toFinset ∪ allTargets cg) \ visited.toFinset).card, queue.length)
  decreasing_by
  · have hsub : ((queue.toFinset ∪ allTargets cg) \ visited.toFinset).card ≤
        (((current :: queue).toFinset ∪ allTargets cg) \ visited.toFinset).card := by
      apply Finset.card_le_card
      apply Finset.sdiff_subset_sdiff _ le_rfl
      apply Finset.union_subset_union _ le_rfl
      simp only [List.toFinset_cons]
      exact Finset.subset_insert _ _
    rcases lt_or_eq_of_le hsub with h | h
    · exact Prod.Lex.left _ _ h
    · rw [h]
      exact Prod.Lex.right _ (by simp)
  · apply Prod.Lex.left
    have htgt : ∀ (l : List (Str × List Str)) (k : Str),
        ((lookupA k l).getD []).toFinset ⊆ allTargets l := by
      intro l
      induction l with
      | nil => intro k; simp [lookupA, allTargets]
      | cons e t ih =>
        intro k
        by_cases hk : k = e.1
        · simp only [lookupA, if_pos hk, allTargets, List.foldr_cons, Option.getD_some]
          exact Finset.subset_union_left
        · simp only [lookupA, if_neg hk, allTargets, List.foldr_cons]
          exact (ih k).trans Finset.subset_union_right
    have hcur : current ∈ ((current :: queue).toFinset ∪ allTargets cg) \ visited.toFinset := by
      simp only [Finset.mem_sdiff, Finset.mem_union, List.toFinset_cons, Finset.mem_insert,
        List.mem_toFinset]
      exact ⟨Or.inl (Or.inl trivial), hv⟩
    have hss : ((queue ++ (lookupA current cg).getD []).toFinset ∪ allTargets cg) \
          (current :: visited).toFinset ⊆
        ((((current :: queue).toFinset ∪ allTargets cg) \ visited.toFinset).erase current) := by
      intro x hx
      simp only [Finset.mem_sdiff, Finset.mem_union, List.toFinset_append, List.toFinset_cons,
        Finset.mem_insert, List.mem_toFinset, Finset.mem_erase] at hx ⊢
      obtain ⟨hin, hnv⟩ := hx
      push_neg at hnv
      refine ⟨hnv.1, ?_, hnv.2⟩
      rcases hin with (hq | he) | ht
      · exact Or.inl (Or.inr hq)
      · exact Or.inr (htgt cg current (by simpa using he))
      · exact Or.inr ht
    calc (((queue ++ (lookupA current cg).getD []).toFinset ∪ allTargets cg) \
            (current :: visited).toFinset).card
        ≤ ((((current :: queue).toFinset ∪ allTargets cg) \ visited.toFinset).erase
            current).card := Finset.card_le_card hss
      _ < (((current :: queue).toFinset ∪ allTargets cg) \ visited.toFinset).card := by
          have := Finset.card_erase_of_mem hcur
          have hpos := Finset.card_pos.mpr ⟨current, hcur⟩
          omega
  · apply Prod.Lex.left
    have hcur : current ∈ ((current :: queue).toFinset ∪ allTargets cg) \ visited.toFinset := by
      simp only [Finset.mem_sdiff, Finset.mem_union, List.toFinset_cons, Finset.mem_insert,
        List.mem_toFinset]
      exact ⟨Or.inl (Or.inl trivial), hv⟩
    have hss : (queue.toFinset ∪ allTargets cg) \ (current :: visited).toFinset ⊆
        ((((current :: queue).toFinset ∪ allTargets cg) \ visited.toFinset).erase current) := by
      intro x hx
      simp only [Finset.mem_sdiff, Finset.mem_union, List.toFinset_cons, Finset.mem_insert,
        List.mem_toFinset, Finset.mem_erase] at hx ⊢
      obtain ⟨hin, hnv⟩ := hx
      push_neg at hnv
      refine ⟨hnv.1, ?_, hnv.2⟩
      rcases hin with hq | ht
      · exact Or.inl (Or.inr hq)
      · exact Or.inr ht
    calc ((queue.toFinset ∪ allTargets cg) \ (current :: visited).toFinset).card
        ≤ ((((current :: queue).toFinset ∪ allTargets cg) \ visited.toFinset).erase
            current).card := Finset.card_le_card hss
      _ < (((current :: queue).toFinset ∪ allTargets cg) \ visited.toFinset).card := by
          have := Finset.card_erase_of_mem hcur
          have hpos := Finset.card_pos.mpr ⟨current, hcur⟩
          omega

/-- Assembly from the selected start function (main.rs lines 144-146). -/
def assembleContext (defs : List (Str × FunctionInfo)) (cg : List (Str × List Str))
    (start : Str) : List Str × List (Str × Str × Str) :=
  bfsLoop defs cg [start] [] []

/-- Outcome of a run after file collection: either the assembled document
(exit 0) or the not-found diagnostics (exit 1, no document). -/
inductive RunOutcome : Type
  | document (sections : List (Str × Str × Str))
  | notFound (suggestions : List Str)
deriving DecidableEq

def exitCode : RunOutcome → Nat
  | .document _ => 0
  | .notFound _ => 1

/-- The portion of `main` after file collection (main.rs lines 52-180):
index construction, call-graph resolution, selection, and either BFS
assembly of the document or the not-found suggestion diagnostics with
failure exit. -/
def runMain (files : List (Str × Str)) (target : Str)
    (preferredModule : Option Str) : RunOutcome :=
  let idx := buildIndex files
  match find_function target preferredModule idx.2 with
  | some q => .document (assembleContext idx.1 (buildCallGraph idx.1 idx.2) q).2
  | none => .notFound (suggestionsFor target idx.2)

/-! ### Theorems -/

theorem replaceAllGo_nil (pat rep : Str) (fuel : Nat) : replaceAllGo pat rep fuel [] = [] := by
  cases fuel <;> rfl

theorem containsStr_cons_false {c : Char} {r pat : Str}
    (h : containsStr (c :: r) pat = false) :
    containsStr r pat = false ∧ pat.isPrefixOf (c :: r) = false := by
  unfold containsStr at h
  split at h
  · exact absurd h (by simp)
  · rename_i hpre
    exact ⟨h, Bool.eq_false_iff.mpr hpre⟩

theorem replaceAllGo_append_rs (r : Str) (hr : containsStr r (strL ".rs") = false) :
    ∀ fuel, r.length + 4 ≤ fuel →
      replaceAllGo (strL ".rs") [] fuel (r ++ strL ".rs") = r := by
  induction r with
  | nil =>
    intro fuel hf
    obtain ⟨f, rfl⟩ : ∃ f, fuel = f + 1 := ⟨fuel - 1, by omega⟩
    show replaceAllGo (strL ".rs") [] (f + 1) (strL ".rs") = []
    simp only [replaceAllGo]
    rw [if_pos (by decide)]
    simp [strL, replaceAllGo_nil]
  | cons c r' ih =>
    intro fuel hf
    obtain ⟨f, rfl⟩ : ∃ f, fuel = f + 1 := ⟨fuel - 1, by omega⟩
    have hsplit := containsStr_cons_false hr
    show replaceAllGo (strL ".rs") [] (f + 1) (c :: (r' ++ strL ".rs")) = c :: r'
    simp only [replaceAllGo]
    rw [if_neg]
    · rw [ih hsplit.1 f (by simp at hf ⊢; omega)]
    · rintro ⟨-, hpre⟩
      rw [List.isPrefixOf_iff_prefix] at hpre
      obtain ⟨t, ht⟩ := hpre
      have hc : c = '.' := by
        have := congrArg (List.head? ·) ht
        simpa [strL] using this.symm
      match r', ht with
      | [], ht => simp [strL, hc] at ht
      | [x], ht => simp [strL, hc] at ht
      | x :: y :: t', ht =>
        have hx : x = 'r' ∧ y = 's' := by
          simp [strL, hc] at ht
          exact ⟨ht.1.symm, ht.2.1.symm⟩
        have : containsStr (c :: x :: y :: t') (strL ".rs") = true := by
          unfold containsStr
          rw [if_pos]
          rw [List.isPrefixOf_iff_prefix, hc, hx.1, hx.2]
          exact ⟨t', rfl⟩
        rw [this] at hr
        exact absurd hr (by simp)

/-- C2 counterexample: for the file `a.rs/b.rs` (a directory named `a.rs`
containing `b.rs`), the code's `str::replace(".rs", "")` removes BOTH
occurrences of `.rs`, producing `a::b`, while stripping only the `.rs` file
extension (as the claim states) would produce `a.rs::b`. -/
theorem module_path_counterexample :
    extractModulePath (strL "a.rs/b.rs") = strL "a::b" ∧
    claimModulePath (strL "a.rs/b.rs") = strL "a.rs::b" ∧
    extractModulePath (strL "a.rs/b.rs") ≠ claimModulePath (strL "a.rs/b.rs") :=
  ⟨by decide, by decide, by decide⟩

/-- C2 (amended): for every source path whose separator-replaced form contains
the substring `.rs` exactly once, at its very end, the derived module_path is
the separator-replaced path with that final `.rs` extension stripped and a
trailing `::lib`/`::mod` collapsed to the parent module.  (In general the code
removes EVERY occurrence of `.rs`, not only the extension.) -/
theorem module_path_unique_extension (p r : Str)
    (hq : sepReplaced p = r ++ strL ".rs")
    (hr : containsStr r (strL ".rs") = false) :
    extractModulePath p = collapseLibMod r := by
  unfold extractModulePath
  rw [hq]
  congr 1
  unfold replaceAll
  have hlen : (r ++ strL ".rs").length + 1 = r.length + 4 := by simp [strL]
  rw [hlen]
  exact replaceAllGo_append_rs r hr (r.length + 4) le_rfl

theorem module_path_unique_extension_witness :
    sepReplaced (strL "src/foo.rs") = strL "src::foo" ++ strL ".rs" ∧
    containsStr (strL "src::foo") (strL ".rs") = false ∧
    extractModulePath (strL "src/foo.rs") = collapseLibMod (strL "src::foo") :=
  ⟨by decide, by decide, module_path_unique_extension _ _ (by decide) (by decide)⟩

/-- C3: with several variants for a raw call name, the resolver picks the
variant whose module path equals the caller's own module path when one
exists, and the first variant in discovery order otherwise; concretely, with
`run` defined in modules `a` and `b` (in either discovery order), a caller
in module `a` referencing `run` gets the edge `a::run`, not `b::run`. -/
theorem resolver_same_module_preference :
    (∀ (callerQ : Str) (v0 : Str × Str) (rest : List (Str × Str)), rest ≠ [] →
      (∀ v, (v0 :: rest).find? (fun w => callerModuleOf callerQ = some w.2) = some v →
        resolveOne (callerModuleOf callerQ) (v0 :: rest) = some v.1) ∧
      ((v0 :: rest).find? (fun w => callerModuleOf callerQ = some w.2) = none →
        resolveOne (callerModuleOf callerQ) (v0 :: rest) = some v0.1)) ∧
    resolveCalls [(strL "run", [(strL "a::run", strL "a"), (strL "b::run", strL "b")])]
      (strL "a::caller") [strL "run"] = [strL "a::run"] ∧
    resolveCalls [(strL "run", [(strL "b::run", strL "b"), (strL "a::run", strL "a")])]
      (strL "a::caller") [strL "run"] = [strL "a::run"] := by
  refine ⟨fun callerQ v0 rest hne => ⟨fun v hv => ?_, fun hn => ?_⟩, by decide, by decide⟩
  · simp only [resolveOne, if_neg hne, hv]
  · simp only [resolveOne, if_neg hne, hn]

theorem resolver_same_module_preference_witness :
    ([(strL "b::run", strL "b")] ≠ ([] : List (Str × Str))) ∧
    ([(strL "a::run", strL "a"), (strL "b::run", strL "b")].find?
        (fun w => callerModuleOf (strL "a::caller") = some w.2) =
      some (strL "a::run", strL "a")) ∧
    resolveOne (callerModuleOf (strL "a::caller"))
      [(strL "a::run", strL "a"), (strL "b::run", strL "b")] = some (strL "a::run") := by
  refine ⟨by decide, by decide, ?_⟩
  exact (resolver_same_module_preference.1 (strL "a::caller")
    (strL "a::run", strL "a") [(strL "b::run", strL "b")] (by decide)).1
    (strL "a::run", strL "a") (by decide)

theorem bump_eq_stopped {x : ScanOut} {n : Nat} (h : x.bump = .stopped n) :
    ∃ m, x = .stopped m ∧ n = m + 1 := by
  cases x with
  | stopped m =>
    refine ⟨m, rfl, ?_⟩
    simpa [ScanOut.bump] using h.symm
  | ended c f => simp [ScanOut.bump] at h

theorem braceScan_stopped_balance :
    ∀ (s : Str) (count : Int) (found : Bool) (n : Nat),
      braceScan count found s = .stopped n →
      count + ((s.take n).count '\x7b' : Int) - (s.take n).count '\x7d' = 0 := by
  intro s
  induction s with
  | nil => intro count found n h; simp [braceScan] at h
  | cons c rest ih =>
    intro count found n h
    rw [braceScan] at h
    by_cases hob : c = '\x7b'
    · rw [if_pos hob] at h
      obtain ⟨m, hm, rfl⟩ := bump_eq_stopped h
      have := ih (count + 1) true m hm
      subst hob
      simp only [List.take_succ_cons, List.count_cons]
      simp at this ⊢
      omega
    · rw [if_neg hob] at h
      by_cases hcb : c = '\x7d'
      · rw [if_pos hcb] at h
        by_cases hstop : count - 1 = 0 ∧ found
        · rw [if_pos hstop] at h
          cases h
          subst hcb
          simp only [List.take_succ_cons, List.take_zero, List.count_cons, List.count_nil]
          simp
          omega
        · rw [if_neg hstop] at h
          obtain ⟨m, hm, rfl⟩ := bump_eq_stopped h
          have := ih (count - 1) found m hm
          subst hcb
          simp only [List.take_succ_cons, List.count_cons]
          simp at this ⊢
          omega
      · rw [if_neg hcb] at h
        obtain ⟨m, hm, rfl⟩ := bump_eq_stopped h
        have := ih count found m hm
        simp only [List.take_succ_cons, List.count_cons]
        simp [hob, hcb] at this ⊢
        omega

theorem isWsChar_ne_braces {a : Char} (h : isWsChar a = true) :
    a ≠ '\x7b' ∧ a ≠ '\x7d' := by
  simp only [isWsChar, Bool.or_eq_true, decide_eq_true_eq] at h
  rcases h with ((((rfl | rfl) | rfl) | rfl) | rfl) | rfl <;> exact ⟨by decide, by decide⟩

theorem count_dropWhileWs (s : Str) (c : Char) (hc : isWsChar c = false) :
    (s.dropWhile isWsChar).count c = s.count c := by
  induction s with
  | nil => rfl
  | cons a t ih =>
    by_cases ha : isWsChar a
    · have hne : a ≠ c := by
        intro hac
        rw [hac, hc] at ha
        exact absurd ha (by simp)
      simp [List.dropWhile_cons, ha, ih, List.count_cons, hne.symm, Ne.symm hne]
    · simp [List.dropWhile_cons, ha]

theorem count_trimWs (s : Str) (c : Char) (hc : isWsChar c = false) :
    (trimWs s).count c = s.count c := by
  unfold trimWs
  rw [List.count_reverse, count_dropWhileWs _ _ hc, List.count_reverse,
    count_dropWhileWs _ _ hc]

/-- C4: for a function whose signature segment contains no braces and whose
brace scan stops (the first closing brace returning the nesting counter to
zero after an opening brace was seen), the stored definition text has equal
counts of opening and closing braces. -/
theorem extracted_definition_braces_balanced
    (content : Str) (defStart matchEnd n : Nat)
    (hds : defStart ≤ matchEnd) (hme : matchEnd ≤ content.length)
    (hsig : ∀ c ∈ (content.take matchEnd).drop defStart, c ≠ '\x7b' ∧ c ≠ '\x7d')
    (hscan : braceScan 0 false (content.drop matchEnd) = .stopped n) :
    (defTextOf content defStart (defEndOf content matchEnd)).count '\x7b' =
      (defTextOf content defStart (defEndOf content matchEnd)).count '\x7d' := by
  have hde : defEndOf content matchEnd = matchEnd + n := by
    unfold defEndOf
    rw [hscan]
  unfold defTextOf
  rw [hde, count_trimWs _ _ (by decide), count_trimWs _ _ (by decide)]
  rw [List.take_add]
  rw [List.drop_append_of_le_length (by simp; omega)]
  rw [List.count_append, List.count_append]
  have h1 : ((content.take matchEnd).drop defStart).count '\x7b' = 0 :=
    List.count_eq_zero.mpr (fun h => ((hsig _ h).1 rfl).elim)
  have h2 : ((content.take matchEnd).drop defStart).count '\x7d' = 0 :=
    List.count_eq_zero.mpr (fun h => ((hsig _ h).2 rfl).elim)
  have hbal := braceScan_stopped_balance (content.drop matchEnd) 0 false n hscan
  omega

theorem extracted_definition_braces_balanced_witness :
    (0 ≤ 5 ∧ 5 ≤ (strL "fn f() \x7b\x7b\x7d\x7d").length ∧
      (∀ c ∈ ((strL "fn f() \x7b\x7b\x7d\x7d").take 5).drop 0, c ≠ '\x7b' ∧ c ≠ '\x7d') ∧
      braceScan 0 false ((strL "fn f() \x7b\x7b\x7d\x7d").drop 5) = .stopped 6) ∧
    (defTextOf (strL "fn f() \x7b\x7b\x7d\x7d") 0
        (defEndOf (strL "fn f() \x7b\x7b\x7d\x7d") 5)).count '\x7b' =
      (defTextOf (strL "fn f() \x7b\x7b\x7d\x7d") 0
        (defEndOf (strL "fn f() \x7b\x7b\x7d\x7d") 5)).count '\x7d' :=
  ⟨⟨by decide, by decide, by decide, by decide⟩,
    extracted_definition_braces_balanced _ 0 5 6 (by decide) (by decide) (by decide) (by decide)⟩

/-- C5: when the scan finds no opening brace or the counter never returns to
zero (the code's fallback test `!found_opening_brace || brace_count != 0`),
`def_end` is the 5000-character window past the signature fragment, clamped
to the end of the content — extraction is always finite and bounded. -/
theorem extraction_fallback_bounded
    (content : Str) (matchEnd : Nat) (count : Int) (found : Bool)
    (hscan : braceScan 0 false (content.drop matchEnd) = .ended count found)
    (hfb : found = false ∨ count ≠ 0) :
    defEndOf content matchEnd = min (matchEnd + 5000) content.length ∧
    defEndOf content matchEnd ≤ content.length ∧
    defEndOf content matchEnd ≤ matchEnd + 5000 := by
  have h : defEndOf content matchEnd = min (matchEnd + 5000) content.length := by
    unfold defEndOf
    rw [hscan]
    simp only [if_pos hfb]
  refine ⟨h, ?_, ?_⟩ <;> rw [h] <;> omega

theorem extraction_fallback_bounded_witness :
    (braceScan 0 false ((strL "fn f();").drop 5) = .ended 0 false ∧
      ((false = false) ∨ (0 : Int) ≠ 0)) ∧
    defEndOf (strL "fn f();") 5 = min (5 + 5000) (strL "fn f();").length :=
  ⟨⟨by decide, Or.inl rfl⟩,
    (extraction_fallback_bounded (strL "fn f();") 5 0 false (by decide) (Or.inl rfl)).1⟩

theorem findMatchesAux_zero (s : Str) (base : Nat) (ls : Bool) :
    findMatchesAux 0 s base ls = [] := rfl

theorem findMatchesAux_nil (f base : Nat) (ls : Bool) :
    findMatchesAux (f + 1) [] base ls = [] := rfl

theorem findMatchesAux_cons_false (f : Nat) (c : Char) (rest : Str) (base : Nat) :
    findMatchesAux (f + 1) (c :: rest) base false =
      findMatchesAux f rest (base + 1) (decide (c = '\n')) := rfl

theorem findMatchesAux_cons_true (f : Nat) (c : Char) (rest : Str) (base : Nat) :
    findMatchesAux (f + 1) (c :: rest) base true =
      match matchFnSig (c :: rest) with
      | some (len, name) =>
        if len = 0 then
          (base, base, name) :: findMatchesAux f rest (base + 1) (decide (c = '\n'))
        else
          (base, base + len, name) ::
            findMatchesAux f ((c :: rest).drop len) (base + len)
              (decide ((c :: rest)[len - 1]? = some '\n'))
      | none => findMatchesAux f rest (base + 1) (decide (c = '\n')) := rfl

theorem findMatchesAux_cons_none (f : Nat) (c : Char) (rest : Str) (base : Nat)
    (hmf : matchFnSig (c :: rest) = none) :
    findMatchesAux (f + 1) (c :: rest) base true =
      findMatchesAux f rest (base + 1) (decide (c = '\n')) := by
  rw [findMatchesAux_cons_true, hmf]

theorem findMatchesAux_cons_some (f : Nat) (c : Char) (rest : Str) (base len : Nat)
    (name : Str) (hmf : matchFnSig (c :: rest) = some (len, name)) :
    findMatchesAux (f + 1) (c :: rest) base true =
      if len = 0 then
        (base, base, name) :: findMatchesAux f rest (base + 1) (decide (c = '\n'))
      else
        (base, base + len, name) ::
          findMatchesAux f ((c :: rest).drop len) (base + len)
            (decide ((c :: rest)[len - 1]? = some '\n')) := by
  rw [findMatchesAux_cons_true, hmf]

theorem findMatchesAux_line_start (content : Str) :
    ∀ (fuel base : Nat) (lineStart : Bool),
      (lineStart = true → base = 0 ∨ content[base - 1]? = some '\n') →
      ∀ m ∈ findMatchesAux fuel (content.drop base) base lineStart,
        m.1 = 0 ∨ content[m.1 - 1]? = some '\n' := by
  intro fuel
  induction fuel with
  | zero =>
    intro base lineStart hls m hm
    rw [findMatchesAux_zero] at hm
    exact absurd hm (List.not_mem_nil m)
  | succ f ih =>
    intro base lineStart hls m hm
    cases hs : content.drop base with
    | nil =>
      rw [hs, findMatchesAux_nil] at hm
      exact absurd hm (List.not_mem_nil m)
    | cons c rest =>
      rw [hs] at hm
      have hc : content[base]? = some c := by
        have h0 : (content.drop base)[0]? = some c := by rw [hs]; simp
        rwa [List.getElem?_drop] at h0
      have hrest : content.drop (base + 1) = rest := by
        have h0 : (content.drop base).drop 1 = rest := by rw [hs]; rfl
        rwa [List.drop_drop] at h0
      have hnext : (decide (c = '\n')) = true →
          base + 1 = 0 ∨ content[base + 1 - 1]? = some '\n' := by
        intro hd
        right
        simpa [of_decide_eq_true hd] using hc
      cases lineStart with
      | false =>
        rw [findMatchesAux_cons_false] at hm
        rw [← hrest] at hm
        exact ih (base + 1) _ hnext m hm
      | true =>
        cases hmf : matchFnSig (c :: rest) with
        | none =>
          rw [findMatchesAux_cons_none f c rest base hmf] at hm
          rw [← hrest] at hm
          exact ih (base + 1) _ hnext m hm
        | some r =>
          obtain ⟨len, name⟩ := r
          rw [findMatchesAux_cons_some f c rest base len name hmf] at hm
          by_cases hlen : len = 0
          · rw [if_pos hlen] at hm
            rcases List.mem_cons.mp hm with rfl | hm'
            · exact hls rfl
            · rw [← hrest] at hm'
              exact ih (base + 1) _ hnext m hm'
          · rw [if_neg hlen] at hm
            rcases List.mem_cons.mp hm with rfl | hm'
            · exact hls rfl
            · have hdrop : (c :: rest).drop len = content.drop (base + len) := by
                rw [← hs, List.drop_drop, Nat.add_comm]
              have hinv : (decide ((c :: rest)[len - 1]? = some '\n')) = true →
                  base + len = 0 ∨ content[base + len - 1]? = some '\n' := by
                intro hd
                right
                have hco : (c :: rest)[len - 1]? = some '\n' := of_decide_eq_true hd
                rw [← hs, List.getElem?_drop] at hco
                have heq : base + (len - 1) = base + len - 1 := by omega
                rwa [heq] at hco
              rw [hdrop] at hm'
              exact ih (base + len) _ hinv m hm'

theorem rlcAux_ends_nl : ∀ (s : Str) (b : Bool),
    s.getLast? = some '\n' → rlcAux s b = countNl s := by
  intro s
  induction s with
  | nil => intro b h; simp at h
  | cons c rest ih =>
    intro b h
    cases rest with
    | nil =>
      simp only [List.getLast?_singleton, Option.some.injEq] at h
      subst h
      simp [rlcAux, countNl]
    | cons d t =>
      rw [List.getLast?_cons_cons] at h
      by_cases hc : c = '\n'
      · have h1 : rlcAux (c :: d :: t) b = 1 + rlcAux (d :: t) false := by
          simp [rlcAux, hc]
        have h2 : countNl (c :: d :: t) = countNl (d :: t) + 1 := by
          simp [countNl, List.count_cons, hc]
        rw [h1, ih false h, h2]
        omega
      · have h1 : rlcAux (c :: d :: t) b = rlcAux (d :: t) true := by
          simp [rlcAux, hc]
        have h2 : countNl (c :: d :: t) = countNl (d :: t) := by
          simp [countNl, List.count_cons, hc]
        rw [h1, ih true h, h2]

theorem recordedLineNumber_of_line_start {content : Str} {p : Nat}
    (h : p = 0 ∨ content[p - 1]? = some '\n') :
    recordedLineNumber content p = lineOfPos content p := by
  rcases Nat.eq_zero_or_pos p with rfl | hp
  · simp [recordedLineNumber, lineOfPos, rustLinesCount, rlcAux, countNl]
  · rcases h with rfl | h
    · omega
    · have hlt : p - 1 < content.length := by
        rcases List.getElem?_eq_some.mp h with ⟨h', _⟩
        exact h'
      have hple : p ≤ content.length := by omega
      have hlast : (content.take p).getLast? = some '\n' := by
        rw [List.getLast?_eq_getElem?]
        have hlentake : (content.take p).length = p := by simp [hple]
        rw [hlentake, List.getElem?_take, if_pos (by omega)]
        exact h
      unfold recordedLineNumber lineOfPos rustLinesCount
      rw [rlcAux_ends_nl _ _ hlast]

/-- C7 (amended): each record's line_number equals the 1-based line, counted
over the file content split on newlines, of the REGEX MATCH start.  Because
the pattern's leading `\s*` can absorb the newlines of blank lines preceding
the signature, the match can start on an earlier line than the line on which
the `fn` signature itself starts, and in that case line_number names the
earlier line. -/
theorem line_number_is_match_start_line (content : Str) :
    ∀ m ∈ findMatches content, recordedLineNumber content m.1 = lineOfPos content m.1 := by
  intro m hm
  apply recordedLineNumber_of_line_start
  have h := findMatchesAux_line_start content (content.length + 1) 0 true
    (fun _ => Or.inl rfl)
  exact h m (by simpa [findMatches] using hm)

theorem line_number_is_match_start_line_witness :
    ((0, 6, strL "f") ∈ findMatches (strL "\nfn f() \x7b\x7d")) ∧
    recordedLineNumber (strL "\nfn f() \x7b\x7d") 0 =
      lineOfPos (strL "\nfn f() \x7b\x7d") 0 :=
  ⟨by decide, line_number_is_match_start_line _ (0, 6, strL "f") (by decide)⟩

/-- C7 counterexample: in the file text `"\nfn f() {}"` the `fn` signature
starts at position 1, on line 2, but the regex match starts at position 0
(its leading `\s*` absorbed the blank first line), so the stored record's
line_number is 1 — not the line on which the signature starts. -/
theorem line_number_counterexample :
    findMatches (strL "\nfn f() \x7b\x7d") = [(0, 6, strL "f")] ∧
    (lookupA (strL "f")
        (processFile (strL "a.rs") (strL "a") (strL "\nfn f() \x7b\x7d"))).map
      FunctionInfo.line_number = some 1 ∧
    sigTokenPos (strL "\nfn f() \x7b\x7d") 0 = 1 ∧
    lineOfPos (strL "\nfn f() \x7b\x7d") (sigTokenPos (strL "\nfn f() \x7b\x7d") 0) = 2 ∧
    (1 : Nat) ≠ 2 :=
  ⟨by decide, by decide, by decide, by decide, by decide⟩

/-- C8: a body containing the zero-argument method call `.clone()` — whose
name is on the method-call exclusion list — still gets `clone` into its
calls set: the builder pattern `([a-zA-Z0-9_]+)\s*\(\s*\)` also matches it,
and the builder exclusion list does not contain the method built-ins. -/
theorem method_builtin_leaks_via_builder :
    strL "clone" ∈ methodBuiltins ∧
    strL "clone" ∉ builderExclusions ∧
    strL "clone" ∈ findBuilderCalls (strL "fn main() \x7b x.clone(); \x7d") ∧
    strL "clone" ∈ extractCalls (strL "fn main() \x7b x.clone(); \x7d") := by
  refine ⟨by decide, by decide, by decide, by decide⟩

theorem insertA_nil {α : Type} (k : Str) (v : α) : insertA k v [] = [(k, v)] := rfl

theorem insertA_cons {α : Type} (k : Str) (v : α) (e : Str × α) (rest : List (Str × α)) :
    insertA k v (e :: rest) = if k = e.1 then (k, v) :: rest else e :: insertA k v rest := by
  obtain ⟨ek, ev⟩ := e
  rfl

theorem lookupA_cons {α : Type} (k : Str) (e : Str × α) (rest : List (Str × α)) :
    lookupA k (e :: rest) = if k = e.1 then some e.2 else lookupA k rest := by
  obtain ⟨ek, ev⟩ := e
  rfl

theorem lookupA_insertA {α : Type} (k k' : Str) (v : α) (m : List (Str × α)) :
    lookupA k (insertA k' v m) = if k = k' then some v else lookupA k m := by
  induction m with
  | nil =>
    rw [insertA_nil]
    by_cases h : k = k' <;> simp [lookupA_cons, lookupA, h]
  | cons e rest ih =>
    rw [insertA_cons]
    by_cases h : k' = e.1
    · rw [if_pos h]
      by_cases hk : k = k'
      · simp [lookupA_cons, hk, h]
      · have hke : ¬ k = e.1 := fun hke2 => hk (hke2.trans h.symm)
        simp [lookupA_cons, hk, hke]
    · rw [if_neg h]
      by_cases hke : k = e.1
      · have hkk : ¬ k = k' := fun hkk2 => h (hkk2.symm.trans hke)
        have hek : ¬ e.1 = k' := fun x => h x.symm
        simp [lookupA_cons, hke, hkk, hek]
      · simp [lookupA_cons, hke, ih]

theorem mem_keys_insertA {α : Type} (a k : Str) (v : α) (m : List (Str × α)) :
    a ∈ (insertA k v m).map Prod.fst ↔ a = k ∨ a ∈ m.map Prod.fst := by
  induction m with
  | nil => simp [insertA_nil]
  | cons e rest ih =>
    rw [insertA_cons]
    by_cases h : k = e.1
    · rw [if_pos h]
      simp only [List.map_cons, List.mem_cons, ← h]
      tauto
    · rw [if_neg h]
      simp only [List.map_cons, List.mem_cons, ih]
      tauto

theorem nodup_keys_insertA {α : Type} (k : Str) (v : α) (m : List (Str × α))
    (h : (m.map Prod.fst).Nodup) : ((insertA k v m).map Prod.fst).Nodup := by
  induction m with
  | nil => simp [insertA_nil]
  | cons e rest ih =>
    simp only [List.map_cons, List.nodup_cons] at h
    rw [insertA_cons]
    by_cases hk : k = e.1
    · rw [if_pos hk]
      simp only [List.map_cons, List.nodup_cons]
      exact ⟨hk ▸ h.1, h.2⟩
    · rw [if_neg hk]
      simp only [List.map_cons, List.nodup_cons]
      refine ⟨fun hmem => ?_, ih h.2⟩
      rcases (mem_keys_insertA e.1 k v rest).mp hmem with he | he
      · exact hk he.symm
      · exact h.1 he

theorem lookupA_foldl_insertA {α : Type} (l : List (Str × α)) :
    ∀ (m : List (Str × α)) (k : Str),
      lookupA k (l.foldl (fun acc r => insertA r.1 r.2 acc) m) =
        match l.reverse.find? (fun r => decide (r.1 = k)) with
        | some r => some r.2
        | none => lookupA k m := by
  induction l with
  | nil => intro m k; simp
  | cons r l ih =>
    intro m k
    rw [List.foldl_cons, ih, List.reverse_cons, List.find?_append]
    cases hf : l.reverse.find? (fun r => decide (r.1 = k)) with
    | some x => simp [Option.or]
    | none =>
      simp only [Option.none_or]
      rw [lookupA_insertA]
      by_cases hk : k = r.1
      · simp [List.find?_cons, hk]
      · have : ¬ r.1 = k := fun he => hk he.symm
        simp [List.find?_cons, this, hk]

theorem nodup_keys_foldl_insertA {α : Type} (l : List (Str × α)) :
    ∀ m, (m.map Prod.fst).Nodup →
      ((l.foldl (fun acc r => insertA r.1 r.2 acc) m).map Prod.fst).Nodup := by
  induction l with
  | nil => intro m h; simpa
  | cons r l ih =>
    intro m h
    rw [List.foldl_cons]
    exact ih _ (nodup_keys_insertA _ _ _ h)

/-- C10: the per-file record map is keyed by bare function name without
duplicates — each file contributes at most one record (hence at most one
by_name entry) per bare name — and the record stored under a name is the one
built from the LAST regex match with that name in the file. -/
theorem per_file_last_match_wins (path modulePath content : Str) :
    ((processFile path modulePath content).map Prod.fst).Nodup ∧
    ∀ name, lookupA name (processFile path modulePath content) =
      ((mkRecords path modulePath content).reverse.find?
        (fun r => decide (r.1 = name))).map Prod.snd := by
  constructor
  · exact nodup_keys_foldl_insertA _ [] (by simp)
  · intro name
    rw [processFile, lookupA_foldl_insertA]
    cases hf : (mkRecords path modulePath content).reverse.find?
        (fun r => decide (r.1 = name)) with
    | some x => simp
    | none => simp [lookupA]

/-- C9: two distinct files normalizing to the same module path, each
defining one function with the same bare name: `definitions` retains exactly
one record under the shared qualified name — the last processed — while
`by_name` keeps one (qualified name, module path) entry per defining file,
so the variant list holds the same qualified name twice and its length (2)
exceeds the number of retained definitions (1). -/
theorem index_collision_last_writer_wins
    (p1 p2 c1 c2 m n : Str)
    (hne : p1 ≠ p2)
    (hm1 : extractModulePath p1 = m) (hm2 : extractModulePath p2 = m)
    (hf1 : (processFile p1 m c1).map Prod.fst = [n])
    (hf2 : (processFile p2 m c2).map Prod.fst = [n]) :
    ∃ i1 i2 : FunctionInfo,
      processFile p1 m c1 = [(n, i1)] ∧ processFile p2 m c2 = [(n, i2)] ∧
      (buildIndex [(p1, c1), (p2, c2)]).1 = [(m ++ strL "::" ++ n, i2)] ∧
      lookupA n (buildIndex [(p1, c1), (p2, c2)]).2 =
        some [(m ++ strL "::" ++ n, m), (m ++ strL "::" ++ n, m)] ∧
      (buildIndex [(p1, c1), (p2, c2)]).1.length = 1 := by
  have hx : ∀ (l : List (Str × FunctionInfo)), l.map Prod.fst = [n] →
      ∃ i, l = [(n, i)] := by
    intro l hl
    cases l with
    | nil => simp at hl
    | cons x t =>
      cases t with
      | nil =>
        obtain ⟨a, i⟩ := x
        simp only [List.map_cons, List.map_nil, List.cons.injEq, and_true] at hl
        exact ⟨i, by rw [hl]⟩
      | cons y t2 => simp at hl
  obtain ⟨i1, h1⟩ := hx _ hf1
  obtain ⟨i2, h2⟩ := hx _ hf2
  have hB : buildIndex [(p1, c1), (p2, c2)] =
      ([(m ++ strL "::" ++ n, i2)],
       [(n, [(m ++ strL "::" ++ n, m), (m ++ strL "::" ++ n, m)])]) := by
    simp only [buildIndex, List.foldl_cons, List.foldl_nil, hm1, hm2, h1, h2,
      pushVariant, insertA, lookupA, Option.getD_some, if_pos, List.nil_append]
    simp
  exact ⟨i1, i2, h1, h2, by rw [hB], by rw [hB]; simp [lookupA], by rw [hB]; rfl⟩

theorem index_collision_last_writer_wins_witness :
    ((strL "a.rs" ≠ strL "a.rs.rs") ∧
      extractModulePath (strL "a.rs") = strL "a" ∧
      extractModulePath (strL "a.rs.rs") = strL "a" ∧
      (processFile (strL "a.rs") (strL "a") (strL "fn f() \x7b\x7d")).map Prod.fst =
        [strL "f"] ∧
      (processFile (strL "a.rs.rs") (strL "a") (strL "fn f() \x7b g() \x7d")).map Prod.fst =
        [strL "f"]) ∧
    (∃ i1 i2 : FunctionInfo,
      processFile (strL "a.rs") (strL "a") (strL "fn f() \x7b\x7d") = [(strL "f", i1)] ∧
      processFile (strL "a.rs.rs") (strL "a") (strL "fn f() \x7b g() \x7d") =
        [(strL "f", i2)] ∧
      (buildIndex [(strL "a.rs", strL "fn f() \x7b\x7d"),
          (strL "a.rs.rs", strL "fn f() \x7b g() \x7d")]).1 =
        [(strL "a" ++ strL "::" ++ strL "f", i2)] ∧
      lookupA (strL "f") (buildIndex [(strL "a.rs", strL "fn f() \x7b\x7d"),
          (strL "a.rs.rs", strL "fn f() \x7b g() \x7d")]).2 =
        some [(strL "a" ++ strL "::" ++ strL "f", strL "a"),
          (strL "a" ++ strL "::" ++ strL "f", strL "a")] ∧
      (buildIndex [(strL "a.rs", strL "fn f() \x7b\x7d"),
          (strL "a.rs.rs", strL "fn f() \x7b g() \x7d")]).1.length = 1) :=
  ⟨⟨by decide, by decide, by decide, by decide, by decide⟩,
    index_collision_last_writer_wins (strL "a.rs") (strL "a.rs.rs")
      (strL "fn f() \x7b\x7d") (strL "fn f() \x7b g() \x7d") (strL "a") (strL "f")
      (by decide) (by decide) (by decide) (by decide) (by decide)⟩

theorem find_function_none (target : Str) (pm : Option Str)
    (byName : List (Str × List (Str × Str))) (h : lookupA target byName = none) :
    find_function target pm byName = none := by
  unfold find_function
  rw [h]

theorem suggGo_length : ∀ (l : List (Str × Str)) (i : Nat) (seen : List Str),
    (suggGo l i seen).length ≤ 10 - i := by
  intro l
  induction l with
  | nil => intro i seen; simp [suggGo]
  | cons m rest ih =>
    intro i seen
    simp only [suggGo]
    by_cases hi : i < 10
    · rw [if_pos hi]
      by_cases hs : m.1 ∈ seen
      · rw [if_pos hs]
        have := ih (i + 1) seen
        omega
      · rw [if_neg hs]
        have := ih (i + 1) (m.1 :: seen)
        simp only [List.length_cons]
        omega
    · rw [if_neg hi]
      have := ih (i + 1) seen
      omega

theorem suggGo_nodup_fresh : ∀ (l : List (Str × Str)) (i : Nat) (seen : List Str),
    (suggGo l i seen).Nodup ∧ ∀ q ∈ suggGo l i seen, q ∉ seen := by
  intro l
  induction l with
  | nil => intro i seen; simp [suggGo]
  | cons m rest ih =>
    intro i seen
    simp only [suggGo]
    by_cases hi : i < 10
    · rw [if_pos hi]
      by_cases hs : m.1 ∈ seen
      · rw [if_pos hs]
        exact ih (i + 1) seen
      · rw [if_neg hs]
        obtain ⟨hnd, hfr⟩ := ih (i + 1) (m.1 :: seen)
        refine ⟨List.nodup_cons.mpr ⟨fun hmem => ?_, hnd⟩, fun q hq => ?_⟩
        · exact hfr m.1 hmem (List.mem_cons_self _ _)
        · rcases List.mem_cons.mp hq with rfl | hq2
          · exact hs
          · intro hqs
            exact hfr q hq2 (List.mem_cons_of_mem _ hqs)
    · rw [if_neg hi]
      exact ih (i + 1) seen

theorem suggGo_mem : ∀ (l : List (Str × Str)) (i : Nat) (seen : List Str),
    ∀ q ∈ suggGo l i seen, ∃ mp, (q, mp) ∈ l := by
  intro l
  induction l with
  | nil => intro i seen q hq; simp [suggGo] at hq
  | cons m rest ih =>
    intro i seen q hq
    simp only [suggGo] at hq
    by_cases hi : i < 10
    · rw [if_pos hi] at hq
      by_cases hs : m.1 ∈ seen
      · rw [if_pos hs] at hq
        obtain ⟨mp, hmp⟩ := ih (i + 1) seen q hq
        exact ⟨mp, List.mem_cons_of_mem _ hmp⟩
      · rw [if_neg hs] at hq
        rcases List.mem_cons.mp hq with rfl | hq2
        · exact ⟨m.2, by simp⟩
        · obtain ⟨mp, hmp⟩ := ih (i + 1) (m.1 :: seen) q hq2
          exact ⟨mp, List.mem_cons_of_mem _ hmp⟩
    · rw [if_neg hi] at hq
      obtain ⟨mp, hmp⟩ := ih (i + 1) seen q hq
      exact ⟨mp, List.mem_cons_of_mem _ hmp⟩

theorem partialMatches_mem (target : Str) (byName : List (Str × List (Str × Str))) :
    ∀ p ∈ partialMatches target byName,
      ∃ e ∈ byName, containsStr e.1 target = true ∧ p ∈ e.2 := by
  have hgen : ∀ (l : List (Str × List (Str × Str))) (acc : List (Str × Str)) (p : Str × Str),
      p ∈ l.foldl (fun acc e => if containsStr e.1 target then acc ++ e.2 else acc) acc →
      p ∈ acc ∨ ∃ e ∈ l, containsStr e.1 target = true ∧ p ∈ e.2 := by
    intro l
    induction l with
    | nil => intro acc p h; exact Or.inl h
    | cons e rest ih =>
      intro acc p h
      rw [List.foldl_cons] at h
      by_cases hc : containsStr e.1 target
      · rw [if_pos hc] at h
        rcases ih _ p h with h2 | ⟨e2, he2, hc2, hp2⟩
        · rcases List.mem_append.mp h2 with h3 | h3
          · exact Or.inl h3
          · exact Or.inr ⟨e, List.mem_cons_self _ _, hc, h3⟩
        · exact Or.inr ⟨e2, List.mem_cons_of_mem _ he2, hc2, hp2⟩
      · rw [if_neg hc] at h
        rcases ih _ p h with h2 | ⟨e2, he2, hc2, hp2⟩
        · exact Or.inl h2
        · exact Or.inr ⟨e2, List.mem_cons_of_mem _ he2, hc2, hp2⟩
  intro p hp
  rcases hgen byName [] p hp with h | h
  · exact absurd h (List.not_mem_nil p)
  · exact h

/-- C6: when the requested name is not a key of `by_name`, the run reports a
deduplicated list of at most 10 suggestions — each the qualified name of a
variant of some known bare name containing the requested name as a
substring — and terminates with exit status 1 producing no output document;
with no substring match the suggestion list is empty (the plain not-found
diagnostic). -/
theorem not_found_reports_bounded_suggestions
    (files : List (Str × Str)) (target : Str) (preferredModule : Option Str)
    (hnk : lookupA target (buildIndex files).2 = none) :
    runMain files target preferredModule =
      .notFound (suggestionsFor target (buildIndex files).2) ∧
    exitCode (runMain files target preferredModule) = 1 ∧
    (suggestionsFor target (buildIndex files).2).length ≤ 10 ∧
    (suggestionsFor target (buildIndex files).2).Nodup ∧
    (∀ q ∈ suggestionsFor target (buildIndex files).2,
      ∃ e ∈ (buildIndex files).2, containsStr e.1 target = true ∧
        ∃ mp, (q, mp) ∈ e.2) ∧
    (partialMatches target (buildIndex files).2 = [] →
      suggestionsFor target (buildIndex files).2 = []) := by
  have hrun : runMain files target preferredModule =
      .notFound (suggestionsFor target (buildIndex files).2) := by
    simp only [runMain, find_function_none target preferredModule _ hnk]
  refine ⟨hrun, by rw [hrun]; rfl, ?_, ?_, ?_, ?_⟩
  · have := suggGo_length (partialMatches target (buildIndex files).2) 0 []
    simpa [suggestionsFor] using this
  · exact (suggGo_nodup_fresh (partialMatches target (buildIndex files).2) 0 []).1
  · intro q hq
    obtain ⟨mp, hmp⟩ := suggGo_mem (partialMatches target (buildIndex files).2) 0 [] q hq
    obtain ⟨e, he, hc, hpe⟩ := partialMatches_mem target (buildIndex files).2 (q, mp) hmp
    exact ⟨e, he, hc, mp, hpe⟩
  · intro h
    simp [suggestionsFor, h, suggGo]

theorem not_found_reports_bounded_suggestions_witness :
    (lookupA (strL "app")
        (buildIndex [(strL "a.rs", strL "fn apple() \x7b\x7d")]).2 = none) ∧
    runMain [(strL "a.rs", strL "fn apple() \x7b\x7d")] (strL "app") none =
      .notFound (suggestionsFor (strL "app")
        (buildIndex [(strL "a.rs", strL "fn apple() \x7b\x7d")]).2) ∧
    exitCode (runMain [(strL "a.rs", strL "fn apple() \x7b\x7d")] (strL "app") none) = 1 :=
  ⟨by decide,
    (not_found_reports_bounded_suggestions
      [(strL "a.rs", strL "fn apple() \x7b\x7d")] (strL "app") none (by decide)).1,
    (not_found_reports_bounded_suggestions
      [(strL "a.rs", strL "fn apple() \x7b\x7d")] (strL "app") none (by decide)).2.1⟩

theorem bfsLoop_nil (defs : List (Str × FunctionInfo)) (cg : List (Str × List Str))
    (visited : List Str) (output : List (Str × Str × Str)) :
    bfsLoop defs cg [] visited output = (visited, output) := by
  simp [bfsLoop]

theorem bfsLoop_skip (defs : List (Str × FunctionInfo)) (cg : List (Str × List Str))
    (current : Str) (queue visited : List Str) (output : List (Str × Str × Str))
    (hv : current ∈ visited) :
    bfsLoop defs cg (current :: queue) visited output =
      bfsLoop defs cg queue visited output := by
  rw [bfsLoop]
  simp [hv]

theorem bfsLoop_some (defs : List (Str × FunctionInfo)) (cg : List (Str × List Str))
    (current : Str) (queue visited : List Str) (output : List (Str × Str × Str))
    (hv : current ∉ visited) (info : FunctionInfo)
    (hl : lookupA current defs = some info) :
    bfsLoop defs cg (current :: queue) visited output =
      bfsLoop defs cg (queue ++ (lookupA current cg).getD []) (current :: visited)
        (output ++ [(current, info.path, info.definition)]) := by
  rw [bfsLoop]
  simp [hv, hl]

theorem bfsLoop_none (defs : List (Str × FunctionInfo)) (cg : List (Str × List Str))
    (current : Str) (queue visited : List Str) (output : List (Str × Str × Str))
    (hv : current ∉ visited) (hl : lookupA current defs = none) :
    bfsLoop defs cg (current :: queue) visited output =
      bfsLoop defs cg queue (current :: visited) output := by
  rw [bfsLoop]
  simp [hv, hl]

theorem lookupA_eq_none_iff {α : Type} (k : Str) (m : List (Str × α)) :
    lookupA k m = none ↔ k ∉ m.map Prod.fst := by
  induction m with
  | nil => simp [lookupA]
  | cons e rest ih =>
    rw [lookupA_cons]
    by_cases h : k = e.1
    · rw [if_pos h]
      constructor
      · intro hsome
        exact Option.noConfusion hsome
      · intro hmem
        apply absurd _ hmem
        rw [List.map_cons, h]
        exact List.mem_cons_self _ _
    · rw [if_neg h, ih]
      simp only [List.map_cons, List.mem_cons]
      constructor
      · intro hk h2
        rcases h2 with h2 | h2
        · exact h h2
        · exact hk h2
      · intro hk h2
        exact hk (Or.inr h2)

theorem bfs_reach_escape (cg : List (Str × List Str)) (visited queue : List Str)
    (hclo : ∀ v ∈ visited, ∀ t, edgeStep cg v t → t ∈ visited ∨ t ∈ queue) :
    ∀ a b, Reaches cg a b → a ∈ visited →
      b ∈ visited ∨ ∃ q ∈ queue, Reaches cg q b := by
  intro a b hab
  have hab' : Relation.ReflTransGen (edgeStep cg) a b := hab
  clear hab
  induction hab' using Relation.ReflTransGen.head_induction_on with
  | refl => intro hb; exact Or.inl hb
  | head hstep htail ih =>
    rename_i x y
    intro hx
    rcases hclo x hx y hstep with hy | hy
    · exact ih hy
    · exact Or.inr ⟨y, hy, htail⟩

theorem bfsLoop_spec (defs : List (Str × FunctionInfo)) (cg : List (Str × List Str))
    (hcg : ∀ k, lookupA k defs = none → lookupA k cg = none) :
    ∀ (queue visited : List Str) (output : List (Str × Str × Str)),
      visited.Nodup →
      ((output.map Prod.fst).Nodup ∧ ∀ n ∈ output.map Prod.fst, n ∈ visited) →
      (∀ v ∈ visited, ∀ t, edgeStep cg v t → t ∈ visited ∨ t ∈ queue) →
      (bfsLoop defs cg queue visited output).1.Nodup ∧
      ((bfsLoop defs cg queue visited output).2.map Prod.fst).Nodup ∧
      (∀ n ∈ (bfsLoop defs cg queue visited output).2.map Prod.fst,
        n ∈ (bfsLoop defs cg queue visited output).1) ∧
      ∀ n, n ∈ (bfsLoop defs cg queue visited output).1 ↔
        n ∈ visited ∨ ∃ q ∈ queue, Reaches cg q n := by
  intro queue visited output
  induction queue, visited, output using bfsLoop.induct defs cg with
  | case1 visited output =>
    intro hnd hout hclo
    rw [bfsLoop_nil]
    refine ⟨hnd, hout.1, hout.2, fun n => ⟨fun h => Or.inl h, fun h => ?_⟩⟩
    rcases h with h | ⟨q, hq, _⟩
    · exact h
    · exact absurd hq (List.not_mem_nil q)
  | case2 current queue visited output hv ih =>
    intro hnd hout hclo
    rw [bfsLoop_skip _ _ _ _ _ _ hv]
    have hclo' : ∀ v ∈ visited, ∀ t, edgeStep cg v t → t ∈ visited ∨ t ∈ queue := by
      intro v hvv t ht
      rcases hclo v hvv t ht with h | h
      · exact Or.inl h
      · rcases List.mem_cons.mp h with rfl | h2
        · exact Or.inl hv
        · exact Or.inr h2
    obtain ⟨i1, i2, i3, i4⟩ := ih hnd hout hclo'
    refine ⟨i1, i2, i3, fun n => ⟨fun h => ?_, fun h => ?_⟩⟩
    · rcases (i4 n).mp h with h | ⟨q, hq, hr⟩
      · exact Or.inl h
      · exact Or.inr ⟨q, List.mem_cons_of_mem _ hq, hr⟩
    · apply (i4 n).mpr
      rcases h with h | ⟨q, hq, hr⟩
      · exact Or.inl h
      · rcases List.mem_cons.mp hq with rfl | hq2
        · exact bfs_reach_escape cg visited queue hclo' q n hr hv
        · exact Or.inr ⟨q, hq2, hr⟩
  | case3 current queue visited output hv info hlk ih =>
    intro hnd hout hclo
    rw [bfsLoop_some _ _ _ _ _ _ hv info hlk]
    have hndv : (current :: visited).Nodup := List.nodup_cons.mpr ⟨hv, hnd⟩
    have houtv : (((output ++ [(current, info.path, info.definition)]).map Prod.fst).Nodup ∧
        ∀ n ∈ (output ++ [(current, info.path, info.definition)]).map Prod.fst,
          n ∈ current :: visited) := by
      constructor
      · rw [List.map_append]
        refine List.Nodup.append hout.1 (by simp) ?_
        intro a ha hb
        simp only [List.map_cons, List.map_nil, List.mem_singleton] at hb
        subst hb
        exact hv (hout.2 _ ha)
      · intro n hn
        rw [List.map_append, List.mem_append] at hn
        rcases hn with hn | hn
        · exact List.mem_cons_of_mem _ (hout.2 n hn)
        · simp only [List.map_cons, List.map_nil, List.mem_singleton] at hn
          subst hn
          exact List.mem_cons_self _ _
    have hclov : ∀ v ∈ current :: visited, ∀ t, edgeStep cg v t →
        t ∈ current :: visited ∨ t ∈ queue ++ (lookupA current cg).getD [] := by
      intro v hvv t ht
      rcases List.mem_cons.mp hvv with rfl | hvv2
      · exact Or.inr (List.mem_append_right _ ht)
      · rcases hclo v hvv2 t ht with h | h
        · exact Or.inl (List.mem_cons_of_mem _ h)
        · rcases List.mem_cons.mp h with rfl | h2
          · exact Or.inl (List.mem_cons_self _ _)
          · exact Or.inr (List.mem_append_left _ h2)
    obtain ⟨i1, i2, i3, i4⟩ := ih hndv houtv hclov
    refine ⟨i1, i2, i3, fun n => ⟨fun h => ?_, fun h => ?_⟩⟩
    · rcases (i4 n).mp h with h | ⟨q, hq, hr⟩
      · rcases List.mem_cons.mp h with rfl | h2
        · exact Or.inr ⟨n, List.mem_cons_self _ _, Relation.ReflTransGen.refl⟩
        · exact Or.inl h2
      · rcases List.mem_append.mp hq with hq2 | hq2
        · exact Or.inr ⟨q, List.mem_cons_of_mem _ hq2, hr⟩
        · have hedge : edgeStep cg current q := hq2
          exact Or.inr ⟨current, List.mem_cons_self _ _, Relation.ReflTransGen.head hedge hr⟩
    · apply (i4 n).mpr
      rcases h with h | ⟨q, hq, hr⟩
      · exact Or.inl (List.mem_cons_of_mem _ h)
      · rcases List.mem_cons.mp hq with rfl | hq2
        · rcases bfs_reach_escape cg (q :: visited)
              (queue ++ (lookupA q cg).getD []) hclov q n hr
              (List.mem_cons_self _ _) with h2 | h2
          · exact Or.inl h2
          · exact Or.inr h2
        · exact Or.inr ⟨q, List.mem_append_left _ hq2, hr⟩
  | case4 current queue visited output hv hlk ih =>
    intro hnd hout hclo
    rw [bfsLoop_none _ _ _ _ _ _ hv hlk]
    have hcg0 : lookupA current cg = none := hcg current hlk
    have hndv : (current :: visited).Nodup := List.nodup_cons.mpr ⟨hv, hnd⟩
    have houtv : ((output.map Prod.fst).Nodup ∧
        ∀ n ∈ output.map Prod.fst, n ∈ current :: visited) :=
      ⟨hout.1, fun n hn => List.mem_cons_of_mem _ (hout.2 n hn)⟩
    have hclov : ∀ v ∈ current :: visited, ∀ t, edgeStep cg v t →
        t ∈ current :: visited ∨ t ∈ queue := by
      intro v hvv t ht
      rcases List.mem_cons.mp hvv with rfl | hvv2
      · exfalso
        have : t ∈ (lookupA v cg).getD [] := ht
        rw [hcg0] at this
        exact absurd this (List.not_mem_nil t)
      · rcases hclo v hvv2 t ht with h | h
        · exact Or.inl (List.mem_cons_of_mem _ h)
        · rcases List.mem_cons.mp h with rfl | h2
          · exact Or.inl (List.mem_cons_self _ _)
          · exact Or.inr h2
    obtain ⟨i1, i2, i3, i4⟩ := ih hndv houtv hclov
    refine ⟨i1, i2, i3, fun n => ⟨fun h => ?_, fun h => ?_⟩⟩
    · rcases (i4 n).mp h with h | ⟨q, hq, hr⟩
      · rcases List.mem_cons.mp h with rfl | h2
        · exact Or.inr ⟨n, List.mem_cons_self _ _, Relation.ReflTransGen.refl⟩
        · exact Or.inl h2
      · exact Or.inr ⟨q, List.mem_cons_of_mem _ hq, hr⟩
    · apply (i4 n).mpr
      rcases h with h | ⟨q, hq, hr⟩
      · exact Or.inl (List.mem_cons_of_mem _ h)
      · rcases List.mem_cons.mp hq with rfl | hq2
        · rcases bfs_reach_escape cg (q :: visited) queue hclov q n hr
              (List.mem_cons_self _ _) with h2 | h2
          · exact Or.inl h2
          · exact Or.inr h2
        · exact Or.inr ⟨q, hq2, hr⟩

theorem mem_keys_buildCallGraph (defs : List (Str × FunctionInfo))
    (byName : List (Str × List (Str × Str))) :
    ∀ k, k ∈ (buildCallGraph defs byName).map Prod.fst → k ∈ defs.map Prod.fst := by
  have hgen : ∀ (l : List (Str × FunctionInfo)) (acc : List (Str × List Str)) (k : Str),
      k ∈ ((l.foldl (fun cg e => insertA e.1 (resolveCalls byName e.1 e.2.calls) cg)
        acc).map Prod.fst) → k ∈ acc.map Prod.fst ∨ k ∈ l.map Prod.fst := by
    intro l
    induction l with
    | nil => intro acc k h; exact Or.inl h
    | cons e rest ih =>
      intro acc k h
      rw [List.foldl_cons] at h
      rcases ih _ k h with h2 | h2
      · rcases (mem_keys_insertA k e.1 _ acc).mp h2 with h3 | h3
        · refine Or.inr ?_
          rw [List.map_cons, h3]
          exact List.mem_cons_self _ _
        · exact Or.inl h3
      · exact Or.inr (List.mem_cons_of_mem _ h2)
  intro k h
  rcases hgen defs [] k h with h2 | h2
  · rw [List.map_nil] at h2
    exact absurd h2 (List.not_mem_nil k)
  · exact h2

theorem lookupA_buildCallGraph_none (defs : List (Str × FunctionInfo))
    (byName : List (Str × List (Str × Str))) (k : Str)
    (h : lookupA k defs = none) : lookupA k (buildCallGraph defs byName) = none := by
  rw [lookupA_eq_none_iff] at h ⊢
  intro hk
  exact h (mem_keys_buildCallGraph defs byName k hk)

/-- C1: over the resolved call graph built for the symbol index, the BFS
assembly never appends a section for the same qualified function twice, and
when the queue empties the visited set is exactly the set of nodes reachable
from the selected start node along resolved call edges — neither a strict
subset nor a strict superset. -/
theorem bfs_no_dup_and_visited_eq_reachable
    (defs : List (Str × FunctionInfo)) (byName : List (Str × List (Str × Str)))
    (start : Str) :
    (((assembleContext defs (buildCallGraph defs byName) start).2.map Prod.fst).Nodup) ∧
    ∀ n, n ∈ (assembleContext defs (buildCallGraph defs byName) start).1 ↔
      Reaches (buildCallGraph defs byName) start n := by
  have h := bfsLoop_spec defs (buildCallGraph defs byName)
    (fun k hk => lookupA_buildCallGraph_none defs byName k hk)
    [start] [] [] (by simp) ⟨by simp, by simp⟩ (by simp)
  refine ⟨h.2.1, fun n => ?_⟩
  unfold assembleContext
  rw [h.2.2.2 n]
  constructor
  · rintro (h2 | ⟨q, hq, hr⟩)
    · exact absurd h2 (List.not_mem_nil n)
    · rcases List.mem_cons.mp hq with rfl | h3
      · exact hr
      · exact absurd h3 (List.not_mem_nil q)
  · intro hr
    exact Or.inr ⟨start, List.mem_cons_self _ _, hr⟩

end GatherContext
